import Mathlib

/-!
Shallow embedding of the nokamute Hive engine core (src/board.rs) in Lean 4.

Conventions of the embedding:
* Machine integers are modelled as `Nat` (with explicit `% 2^64` where u64
  overflow matters).  `i8` grid coordinates are modelled as `Int`; the claims
  settled here never leave the i8 range, so two's-complement wrapping is not
  modelled.
* Fallible operations (Rust index panics, `unwrap`, u8/u16 under/overflow in
  debug builds) return `Option`, with `none` standing for a panic.
* `Vec<Node>` becomes `List Node`; the `[Id; 6]` adjacency array becomes a
  function `Fin 6 → Nat`; the `HashMap<Loc, Id>` becomes an association list
  (its keys are unique, so lookup order is immaterial).
* The DFS / BFS loops of the move generator are given explicit fuel; the fuel
  chosen (256 or more) dominates the size of any arena the Rust code can build
  (node ids are `u8`, so at most 256 nodes ever exist), hence on every board
  the Rust code can construct, the fuelled recursion computes the same result
  as the Rust loop.
-/

namespace Nokamute

/-- Hex coordinate, as in `pub type Loc = (i8, i8)`. -/
abbrev Loc := Int × Int

/-- The five base-game bugs, with their discriminant values from the source. -/
inductive Bug where
  | queen
  | grasshopper
  | spider
  | ant
  | beetle
deriving DecidableEq, Repr

def Bug.toNat : Bug → Nat
  | .queen => 0
  | .grasshopper => 1
  | .spider => 2
  | .ant => 3
  | .beetle => 4

/-- Tile colors; Black = 0 moves first. -/
inductive Color where
  | black
  | white
deriving DecidableEq, Repr

def Color.toNat : Color → Nat
  | .black => 0
  | .white => 1

/-- A tile on the board: `struct Tile { bug, color, underneath: Option<Box<Tile>> }`. -/
inductive Tile where
  | mk (bug : Bug) (color : Color) (underneath : Option Tile)

def Tile.bug : Tile → Bug
  | .mk b _ _ => b

def Tile.color : Tile → Color
  | .mk _ c _ => c

def Tile.underneath : Tile → Option Tile
  | .mk _ _ u => u

/-- `Tile::height`: number of tiles below this one. -/
def Tile.height : Tile → Nat
  | .mk _ _ none => 0
  | .mk _ _ (some t) => 1 + t.height

/-- Graph node: adjacency list (`[Id; 6]`, modelled as a function) plus
optional tile stack. -/
structure Node where
  adj : Fin 6 → Nat
  tile : Option Tile

/-- The sentinel id `UNASSIGNED = 0`. -/
def UNASSIGNED : Nat := 0

def emptyNode : Node := { adj := fun _ => UNASSIGNED, tile := none }

/-- The board state, mirroring `pub struct Board` field by field. -/
structure Board where
  nodes : List Node
  id_to_loc : List Loc
  loc_to_id : List (Loc × Nat)
  remaining : List (List Nat)
  queens : List Nat
  move_num : Nat
  zobrist_hash : Nat
  zobrist_history : List Nat

/-- A move: `Place(Id, Bug)` | `Movement(Id, Id)` | `Pass`. -/
inductive Move where
  | place (id : Nat) (bug : Bug)
  | movement (start finish : Nat)
  | pass
deriving DecidableEq, Repr

/-- The `minimax::Winner` values that `get_winner` can produce:
`Draw`, `Competitor(Player::Computer)`, `Competitor(Player::Opponent)`. -/
inductive Winner where
  | draw
  | competitorComputer
  | competitorOpponent
deriving DecidableEq, Repr

/-- Modelled from the spec: `crate::zobrist::ZOBRIST_TABLE` (the file
`src/zobrist.rs` is not part of the provided sources) is a fixed table of
pseudorandom 64-bit words, indexed by `(id << 4) | (bug << 1) | color`,
seeded deterministically at build time.  The claims settled here depend only
on the table being a fixed function into 64-bit words, so we use a concrete
deterministic mixing function. -/
def ZOBRIST_TABLE (i : Nat) : Nat :=
  (i * 6364136223846793005 + 1442695040888963407) % 2 ^ 64

/-- 64-bit rotate left, as in `u64::rotate_left`. -/
def rotl64 (x k : Nat) : Nat :=
  ((x <<< (k % 64)) % 2 ^ 64) ||| (x >>> (64 - k % 64))

/-- `fn zobrist(id, bug, color, height) -> u64`. -/
def zobrist (id : Nat) (bug : Bug) (color : Color) (height : Nat) : Nat :=
  rotl64 (ZOBRIST_TABLE ((id <<< 4) ||| (bug.toNat <<< 1) ||| color.toNat)) height

/-- `fn adjacent(loc) -> [Loc; 6]`, in clockwise order. -/
def adjacent (loc : Loc) : Fin 6 → Loc :=
  fun i =>
    match i with
    | 0 => (loc.1 - 1, loc.2 - 1)
    | 1 => (loc.1, loc.2 - 1)
    | 2 => (loc.1 + 1, loc.2)
    | 3 => (loc.1 + 1, loc.2 + 1)
    | 4 => (loc.1, loc.2 + 1)
    | 5 => (loc.1 - 1, loc.2)

/-- Association-list lookup standing for `HashMap::get`. -/
def lookupLoc (m : List (Loc × Nat)) (loc : Loc) : Option Nat :=
  (m.find? (fun p => p.1 = loc)).map (·.2)

namespace Board

def to_move (b : Board) : Color :=
  if b.move_num % 2 = 0 then Color.black else Color.white

def loc (b : Board) (id : Nat) : Loc :=
  b.id_to_loc.getD id ((127 : Int), (127 : Int))

/-- `Board::get`: the tile stack at a node (by id). -/
def get (b : Board) (id : Nat) : Option Tile :=
  (b.nodes.getD id emptyNode).tile

/-- `Board::adjacent`: read a node's adjacency array. -/
def adjacentIds (b : Board) (id : Nat) : Fin 6 → Nat :=
  (b.nodes.getD id emptyNode).adj

end Board

/-- One step of the cross-linking loop of `Board::alloc`: if the neighbour
location in direction `i` is allocated, record it in the new node's
adjacency (first component) and point the neighbour's slot `(i + 3) % 6`
back at the new id. -/
def allocLink (locToId : List (Loc × Nat)) (l : Loc) (newId : Nat)
    (acc : (Fin 6 → Nat) × List Node) (i : Fin 6) : (Fin 6 → Nat) × List Node :=
  match lookupLoc locToId (adjacent l i) with
  | some id =>
    ( fun j => if j = i then id else acc.1 j,
      acc.2.set id
        { (acc.2.getD id emptyNode) with
          adj := fun j =>
            if j = ⟨(i.val + 3) % 6, by omega⟩ then newId
            else (acc.2.getD id emptyNode).adj j } )
  | none => acc

namespace Board

/-- `Board::alloc`: return the id for a location, allocating and
cross-linking a fresh node when the location is new.  Returns `none` when the
new id would not fit in a `u8` (the `try_into().unwrap()` panic). -/
def alloc (b : Board) (l : Loc) : Option (Nat × Board) :=
  match lookupLoc b.loc_to_id l with
  | some id => some (id, b)
  | none =>
    if 256 ≤ b.nodes.length then none
    else
      let newId := b.nodes.length
      let b1 : Board := { b with
        loc_to_id := (l, newId) :: b.loc_to_id
        id_to_loc := b.id_to_loc ++ [l] }
      -- Link existing adjacent nodes in both directions.
      let linked :=
        (List.finRange 6).foldl (allocLink b1.loc_to_id l newId)
          (fun _ => UNASSIGNED, b1.nodes)
      some (newId, { b1 with nodes := linked.2 ++ [{ adj := linked.1, tile := none }] })

/-- `Board::alloc_surrounding`: ensure all six neighbours of `id` are
allocated.  The Rust loop re-reads `self.adjacent(id)` on every iteration, so
the fold threads the updated board. -/
def alloc_surrounding (b : Board) (id : Nat) : Option Board :=
  (List.finRange 6).foldlM
    (fun (acc : Board) i =>
      if acc.adjacentIds id i = UNASSIGNED then
        (acc.alloc (adjacent (acc.loc id) i)).map (·.2)
      else
        some acc)
    b

/-- Replace the tile stack stored at node `id` (in-bounds ids only). -/
def setTile (b : Board) (id : Nat) (t : Option Tile) : Board :=
  { b with nodes := b.nodes.set id { b.nodes.getD id emptyNode with tile := t } }

/-- `Board::insert`.  Returns `none` when the id is out of bounds (Rust index
panic) or when `alloc_surrounding` overflows the u8 id space. -/
def insert (b : Board) (id : Nat) (bug : Bug) (color : Color) : Option Board :=
  if b.nodes.length ≤ id then none
  else
    match (b.nodes.getD id emptyNode).tile with
    | some prev =>
      let t := Tile.mk bug color (some prev)
      let b1 := b.setTile id (some t)
      let b2 := { b1 with zobrist_hash := b1.zobrist_hash ^^^ zobrist id bug color t.height }
      some (if bug = Bug.queen then
        { b2 with queens := b2.queens.set (b2.move_num % 2) id }
      else b2)
    | none =>
      -- Potentially newly occupied node: allocate all surrounding nodes.
      match b.alloc_surrounding id with
      | none => none
      | some b0 =>
        let t := Tile.mk bug color none
        let b1 := b0.setTile id (some t)
        let b2 := { b1 with zobrist_hash := b1.zobrist_hash ^^^ zobrist id bug color t.height }
        some (if bug = Bug.queen then
          { b2 with queens := b2.queens.set (b2.move_num % 2) id }
        else b2)

/-- `Board::remove`: take the top tile at `id`; `none` models the
`unwrap` panic when the node is empty.  The returned tile has its
`underneath` taken out, exactly as in the source. -/
def remove (b : Board) (id : Nat) : Option (Tile × Board) :=
  match (b.nodes.getD id emptyNode).tile with
  | none => none
  | some t =>
    let b1 := { b with zobrist_hash := b.zobrist_hash ^^^ zobrist id t.bug t.color t.height }
    let b2 :=
      match t.underneath with
      | some stack => b1.setTile id (some stack)
      | none => b1.setTile id none
    some (Tile.mk t.bug t.color none, b2)

def get_remaining (b : Board) : List Nat :=
  b.remaining.getD (b.move_num % 2) []

def get_available_bugs (b : Board) : List (Bug × Nat) :=
  let remaining := b.get_remaining
  [ (Bug.queen, remaining.getD 0 0),
    (Bug.grasshopper, remaining.getD 1 0),
    (Bug.spider, remaining.getD 2 0),
    (Bug.ant, remaining.getD 3 0),
    (Bug.beetle, remaining.getD 4 0) ]

def queen_required (b : Board) : Bool :=
  5 < b.move_num && 0 < b.get_remaining.getD 0 0

/-- `Board::queens_surrounded`: occupied-neighbour count of each queen id. -/
def queens_surrounded (b : Board) : List Nat :=
  (List.range 2).map (fun i =>
    ((List.finRange 6).map (b.adjacentIds (b.queens.getD i 0))).countP
      (fun adj => (b.get adj).isSome))

end Board

/-- The board before pre-allocation: the dummy unassigned node 0 at the fake
location `(i8::MAX, i8::MAX)`. -/
def boardBase : Board :=
  { nodes := [emptyNode]
    id_to_loc := [((127 : Int), (127 : Int))]
    loc_to_id := [(((127 : Int), (127 : Int)), 0)]
    remaining := [[1, 3, 2, 3, 2], [1, 3, 2, 3, 2]]
    queens := [UNASSIGNED, UNASSIGNED]
    move_num := 0
    zobrist_hash := 0
    zobrist_history := [] }

/-- `Board::default()`; the two `alloc` calls always succeed (fresh locations,
arena far below 256 nodes), so the `getD` fallback is never taken. -/
def defaultBoard : Board :=
  (do
    let (_, b) ← boardBase.alloc ((0 : Int), (0 : Int))
    let (_, b) ← b.alloc ((1 : Int), (0 : Int))
    pure b).getD boardBase

/-- The common tail of `Move::apply`: bump the move counter and push the
current hash onto the history. -/
def finishApply (b : Board) : Board :=
  { b with
    move_num := b.move_num + 1
    zobrist_history := b.zobrist_history ++ [b.zobrist_hash] }

/-- The common head of `Move::undo`: decrement the move counter and pop the
hash history (`Vec::pop` on an empty vector is a no-op). -/
def rewindUndo (b : Board) : Board :=
  { b with
    move_num := b.move_num - 1
    zobrist_history := b.zobrist_history.dropLast }

/-- `Move::apply`: mutate the board, bump the move counter, push the hash.
`none` models the debug panics (removing from an empty node, u8 reserve
underflow, id-space overflow during allocation). -/
def Move.apply : Move → Board → Option Board
  | .place id bug, b =>
    (b.insert id bug b.to_move).bind (fun b1 =>
      let r := b1.get_remaining.getD bug.toNat 0
      if r = 0 then none
      else some (finishApply { b1 with
        remaining :=
          b1.remaining.set (b1.move_num % 2) (b1.get_remaining.set bug.toNat (r - 1)) }))
  | .movement s e, b =>
    (b.remove s).bind (fun p => (p.2.insert e p.1.bug p.1.color).map finishApply)
  | .pass, b => some (finishApply b)

/-- `Move::undo`: decrement the move counter, pop the hash history, and
reverse the mutation.  `none` models the debug panics (u16 underflow of
`move_num`, removing from an empty node, u8 reserve overflow).  The
`move_num` decrement and the history pop happen before the per-variant
mutation, hence the `rewindUndo` at the head of every branch. -/
def Move.undo : Move → Board → Option Board
  | .place id bug, b =>
    if b.move_num = 0 then none
    else
      ((rewindUndo b).remove id).bind (fun p =>
        let r := p.2.get_remaining.getD bug.toNat 0
        if 255 ≤ r then none
        else some { p.2 with
          remaining :=
            p.2.remaining.set (p.2.move_num % 2) (p.2.get_remaining.set bug.toNat (r + 1)) })
  | .movement s e, b =>
    if b.move_num = 0 then none
    else ((rewindUndo b).remove e).bind (fun p => p.2.insert s p.1.bug p.1.color)
  | .pass, b =>
    if b.move_num = 0 then none
    else some (rewindUndo b)

/-- State of the cut-vertex DFS (`NodeSet`s and the `num`/`low` arrays are
modelled as lookup functions over the id space). -/
structure CVState where
  visited : Nat → Bool
  immovable : Nat → Bool
  num : Nat → Nat
  low : Nat → Nat
  visit_num : Nat

def CVState.init : CVState :=
  { visited := fun _ => false
    immovable := fun _ => false
    num := fun _ => 0
    low := fun _ => 0
    visit_num := 1 }

/-- The recursive `dfs` of `find_cut_vertexes`.  The fuel bounds the
recursion depth; a depth of 512 dominates the at most 256 nodes a board can
ever allocate, so on every constructible board this computes the Rust DFS. -/
def dfsCV (b : Board) : Nat → CVState → Nat → Nat → CVState
  | 0, st, _, _ => st
  | fuel + 1, st, id, parent =>
    let st := { st with
      visited := fun x => if x = id then true else st.visited x
      num := fun x => if x = id then st.visit_num else st.num x
      low := fun x => if x = id then st.visit_num else st.low x
      visit_num := st.visit_num + 1 }
    let r := (List.finRange 6).foldl
      (fun (acc : CVState × Nat) i =>
        let adj := b.adjacentIds id i
        if (b.get adj).isNone then acc
        else if adj = parent then acc
        else if acc.1.visited adj then
          ({ acc.1 with
              low := fun x =>
                if x = id then min (acc.1.low id) (acc.1.num adj) else acc.1.low x },
            acc.2)
        else
          let st1 := dfsCV b fuel acc.1 adj id
          let st2 := { st1 with
            low := fun x =>
              if x = id then min (st1.low id) (st1.low adj) else st1.low x }
          let st3 :=
            if st2.num id ≤ st2.low adj ∧ parent ≠ UNASSIGNED then
              { st2 with immovable := fun x => if x = id then true else st2.immovable x }
            else st2
          (st3, acc.2 + 1))
      (st, 0)
    if parent = UNASSIGNED ∧ 1 < r.2 then
      { r.1 with immovable := fun x => if x = id then true else r.1.immovable x }
    else r.1

namespace Board

/-- The first node holding a tile, in id order
(`(0..).zip(self.nodes.iter()).filter(|(_, x)| x.tile.is_some()).next()`). -/
def firstOccupied (b : Board) : Option Nat :=
  (List.range b.nodes.length).find? (fun i => (b.get i).isSome)

/-- `Board::find_cut_vertexes`; `none` models the `unwrap` panic when no
node holds a tile. -/
def find_cut_vertexes (b : Board) : Option (Nat → Bool) :=
  b.firstOccupied.map (fun start => (dfsCV b 512 CVState.init start UNASSIGNED).immovable)

/-- Whether a neighbour counts as occupied for the sliding computation: the
moving bug's own `origin` cell counts as empty. -/
def occupiedBit (b : Board) (origin nb : Nat) : Nat :=
  if (b.get nb).isSome && nb != origin then 1 else 0

end Board

/-- The bit trickery of `slideable_adjacent` on the 6-bit occupancy mask:
wrap the mask around, shift it up by one, and mark as slideable every empty
direction with exactly one occupied circular neighbour.  The i32 `!occupied`
is modelled as a 13-bit complement: only bits 1 through 6 of the result are
consulted, and those agree. -/
def slideMask (occupied6 : Nat) : Nat :=
  let occupied := occupied6 ||| (occupied6 <<< 6)
  let occupied := (occupied <<< 1) ||| ((occupied >>> 5) &&& 1)
  (occupied ^^^ 8191) &&& ((occupied <<< 1) ^^^ (occupied >>> 1))

namespace Board

/-- `Board::slideable_adjacent`: the ids into which a ground-level slide out
of `id` is legal, for the bug occupying `origin`.  The 4-slot output array
is modelled as the list of written entries, in write order.  The source
shifts `slideable` right once per iteration and tests bit 0, so neighbour i
is emitted iff bit (i + 1) of `slideable` is set. -/
def slideable_adjacent (b : Board) (origin id : Nat) : List Nat :=
  let neighbors := (List.finRange 6).map (b.adjacentIds id)
  let slideable := slideMask (neighbors.reverse.foldl
    (fun acc nb => acc * 2 + b.occupiedBit origin nb) 0)
  (List.finRange 6).foldl
    (fun acc i =>
      if (slideable >>> (i.val + 1)) &&& 1 != 0 then acc ++ [neighbors.getD i.val 0] else acc)
    []

/-- `generate_stack_walking`: a bug atop a stack steps to any neighbour. -/
def generate_stack_walking (b : Board) (id : Nat) : List Move :=
  (List.finRange 6).map (fun i => Move.movement id (b.adjacentIds id i))

/-- The `while self.get(jump).is_some()` walk of `generate_jumps`. -/
def jumpLoop (b : Board) (dir : Fin 6) : Nat → Nat → Nat → Nat × Nat
  | 0, jump, dist => (jump, dist)
  | fuel + 1, jump, dist =>
    if (b.get jump).isSome then jumpLoop b dir fuel (b.adjacentIds jump dir) (dist + 1)
    else (jump, dist)

/-- `generate_jumps`: grasshopper jumps over contiguous lines of tiles. -/
def generate_jumps (b : Board) (id : Nat) : List Move :=
  (List.finRange 6).foldl
    (fun acc dir =>
      acc ++
        (let r := jumpLoop b dir 512 id 0
         if 1 < r.2 then [Move.movement id r.1] else []))
    []

/-- `generate_walk_up`: beetle climbs onto any occupied neighbour. -/
def generate_walk_up (b : Board) (id : Nat) : List Move :=
  (List.finRange 6).foldl
    (fun acc i =>
      acc ++
        (let adj := b.adjacentIds id i
         if (b.get adj).isSome then [Move.movement id adj] else []))
    []

/-- `generate_walk1`: queen/beetle single slide step. -/
def generate_walk1 (b : Board) (id : Nat) : List Move :=
  (b.slideable_adjacent id id).map (fun node => Move.movement id node)

end Board

/-- The recursive `dfs` of `generate_walk3` (spider): enumerate slide paths
of length exactly 3.  The path is passed functionally (push before the
recursive calls, pop afterwards).  Depth never exceeds 4, so fuel 8 computes
the Rust recursion exactly. -/
def walk3dfs (b : Board) (orig : Nat) : Nat → Nat → List Nat → List Move
  | 0, _, _ => []
  | fuel + 1, id, path =>
    if path.contains id then []
    else if path.length = 3 then [Move.movement orig id]
    else
      (b.slideable_adjacent orig id).foldl
        (fun acc node => acc ++ walk3dfs b orig fuel node (path ++ [id])) []

namespace Board

def generate_walk3 (b : Board) (orig : Nat) : List Move :=
  walk3dfs b orig 8 orig []

end Board

/-- The `while let Some(node) = queue.pop()` loop of `generate_walk_all`
(ant).  `Vec::pop` takes from the back, so the queue is a stack; pushes go to
the back in neighbour order.  Each fuel unit is one pop; 8192 dominates the
total number of pushes on any constructible board. -/
def walkAllLoop (b : Board) (orig : Nat) : Nat → (Nat → Bool) → List Nat → List Move
  | 0, _, _ => []
  | fuel + 1, visited, queue =>
    match queue.getLast? with
    | none => []
    | some node =>
      let queue := queue.dropLast
      if visited node then walkAllLoop b orig fuel visited queue
      else
        let visited := fun x => if x = node then true else visited x
        let emitted := if node ≠ orig then [Move.movement orig node] else []
        emitted ++ walkAllLoop b orig fuel visited (queue ++ b.slideable_adjacent orig node)

namespace Board

def generate_walk_all (b : Board) (orig : Nat) : List Move :=
  walkAllLoop b orig 8192 (fun _ => false) [orig]

/-- The per-tile dispatch of `generate_movements`: the empty list models the
`continue` cases (no tile, wrong color, immovable ground tile). -/
def movementsFor (b : Board) (immovable : Nat → Bool) (p : Nat × Node) : List Move :=
  match p.2.tile with
  | none => []
  | some tile =>
    if tile.color ≠ b.to_move then []
    else if tile.underneath.isSome then b.generate_stack_walking p.1
    else if immovable p.1 then []
    else
      match tile.bug with
      | .queen => b.generate_walk1 p.1
      | .grasshopper => b.generate_jumps p.1
      | .spider => b.generate_walk3 p.1
      | .ant => b.generate_walk_all p.1
      | .beetle => b.generate_walk1 p.1 ++ b.generate_walk_up p.1

/-- `Board::generate_movements`: per-bug dispatch over the side to move's
tiles, in id order, consulting the cut-vertex set. -/
def generate_movements (b : Board) : Option (List Move) :=
  b.find_cut_vertexes.map (fun immovable =>
    (b.nodes.enum.drop 1).foldl (fun acc p => acc ++ b.movementsFor immovable p) [])

/-- The inner reserve loop of `generate_placements`: one placement per bug
with tiles left, only the queen when `queen_required`. -/
def placementBugs (b : Board) (id : Nat) : List Move :=
  b.get_available_bugs.foldl
    (fun acc q =>
      acc ++
        (if b.queen_required ∧ q.1 ≠ Bug.queen then []
         else if 0 < q.2 then [Move.place id q.1] else []))
    []

/-- The per-cell test of `generate_placements`: an empty cell qualifies when
it has at least one same-colored and no opposite-colored neighbour. -/
def placementsFor (b : Board) (p : Nat × Node) : List Move :=
  if p.2.tile.isSome then []
  else
    let buddies := ((List.finRange 6).map p.2.adj).countP (fun adj =>
      match b.get adj with
      | some t => t.color == b.to_move
      | none => false)
    let enemies := ((List.finRange 6).map p.2.adj).countP (fun adj =>
      match b.get adj with
      | some t => t.color != b.to_move
      | none => false)
    if 0 < buddies ∧ enemies = 0 then b.placementBugs p.1 else []

/-- `Board::generate_placements`. -/
def generate_placements (b : Board) : List Move :=
  (b.nodes.enum.drop 1).foldl (fun acc p => acc ++ b.placementsFor p) []

/-- The move list produced before the Pass fallback of `generate_moves`:
the forced openings for the first two moves, else placements followed (when
the queen is not overdue) by movements. -/
def genBase (b : Board) : Option (List Move) :=
  if b.move_num < 2 then
    some (b.get_available_bugs.map (fun p => Move.place (b.move_num + 1) p.1))
  else
    let pl := b.generate_placements
    if b.queen_required then some pl
    else b.generate_movements.map (fun mv => pl ++ mv)

/-- `Game::generate_moves`, as the produced move list (the caller buffer
holds these moves in slots `0..n` followed by a `None` terminator). -/
def generate_moves (b : Board) : Option (List Move) :=
  b.genBase.map (fun ms => if ms.isEmpty then [Move.pass] else ms)

/-- `Game::get_winner`. -/
def get_winner (b : Board) : Option Winner :=
  let queens_surrounded := b.queens_surrounded
  let n := b.zobrist_history.length
  if 5 < n ∧ b.zobrist_history.getD (n - 5) 0 = b.zobrist_hash then
    some Winner.draw
  else if queens_surrounded = [6, 6] then
    some Winner.draw
  else if queens_surrounded.getD (b.move_num % 2) 0 = 6 then
    some Winner.competitorComputer
  else if queens_surrounded.getD ((b.move_num + 1) % 2) 0 = 6 then
    some Winner.competitorOpponent
  else
    none

end Board

/-- Positions reachable from `Board::default()` by applying generated moves. -/
inductive Reachable : Board → Prop where
  | base : Reachable defaultBoard
  | step {b b' : Board} {ms : List Move} {m : Move} :
      Reachable b → b.generate_moves = some ms → m ∈ ms → m.apply b = some b' →
      Reachable b'

/-- Search-tree states: positions reachable by any well-nested sequence of
apply and undo of generated moves.  The list records the stack of moves
applied but not yet undone, most recent first. -/
inductive SReach : Board → List Move → Prop where
  | base : SReach defaultBoard []
  | app {b b' : Board} {ms : List Move} {l : List Move} {m : Move} :
      SReach b l → b.generate_moves = some ms → m ∈ ms → m.apply b = some b' →
      SReach b' (m :: l)
  | und {b b' : Board} {l : List Move} {m : Move} :
      SReach b (m :: l) → m.undo b = some b' →
      SReach b' l

/-- One checked game step: the move must be a member of the generated move
list and its application must succeed. -/
def stepChecked (b : Board) (m : Move) : Option Board :=
  match b.generate_moves with
  | none => none
  | some ms => if m ∈ ms then m.apply b else none

/-- Play a checked sequence of moves from a position. -/
def play (b : Board) : List Move → Option Board
  | [] => some b
  | m :: ms =>
    match stepChecked b m with
    | none => none
    | some b' => play b' ms

/-- Modelled from the spec: the spec names the non-draw terminal outcomes
JustMovedWins and ToMoveWins.  Its branch for a surrounded to-move queen
reads "win for the side to move's opponent (self-surround loss)", i.e. a win
for the side that just moved, and the code returns
`Winner::Competitor(Player::Computer)` on that branch; so JustMovedWins is
`Competitor(Computer)` and ToMoveWins is the remaining value
`Competitor(Opponent)`. -/
def winnerJustMoved : Winner := Winner.competitorComputer

/-- Modelled from the spec: the ToMoveWins outcome; see `winnerJustMoved`. -/
def winnerToMove : Winner := Winner.competitorOpponent

/-- The repetition condition of `get_winner`: the current hash equals the
entry five slots from the end of the history. -/
def Board.repetition (b : Board) : Prop :=
  5 < b.zobrist_history.length ∧
    b.zobrist_history.getD (b.zobrist_history.length - 5) 0 = b.zobrist_hash

instance (b : Board) : Decidable b.repetition := by
  unfold Board.repetition; infer_instance

/-- The queen placement generated on the very first move. -/
def queenOpening : Move := Move.place 1 Bug.queen

/-- The board obtained from `Board::default()` by applying the generated
queen placement and then undoing it. -/
def undoneQueenBoard : Board :=
  ((queenOpening.apply defaultBoard).bind queenOpening.undo).getD defaultBoard

/-- The reachable play leading to a position where `queen_required` holds
but no queen placement is available, so `generate_moves` emits `Pass`. -/
def c6moves : List Move :=
  [ .place 1 .ant, .place 2 .ant, .movement 1 4, .place 9 .ant,
    .movement 4 1, .movement 9 7 ]

def c6Board : Board := (play defaultBoard c6moves).getD defaultBoard

/-- The reachable play that fully surrounds the Black queen and then repeats
the position once by a four-half-move oscillation. -/
def c3moves : List Move :=
  [ .place 1 .queen, .place 2 .queen, .place 3 .grasshopper, .place 9 .grasshopper,
    .place 7 .ant, .place 15 .ant, .place 6 .grasshopper, .place 14 .grasshopper,
    .place 11 .grasshopper, .place 20 .ant, .movement 11 5, .place 30 .ant,
    .movement 6 4, .place 34 .spider, .place 6 .spider, .movement 34 21,
    .movement 4 23, .movement 21 34, .movement 23 4 ]

def c3Board : Board := (play defaultBoard c3moves).getD defaultBoard

/-- A non-historied position with the Black queen fully surrounded, the
White queen only partially surrounded, and White to move: Black queen at
node 1, its six neighbours occupied (the White queen among them at node 2),
`move_num` odd. -/
def c4Board : Board :=
  (do
    let b ← defaultBoard.insert 1 .queen .black
    let b ← Board.insert { b with move_num := 1 } 2 .queen .white
    let b ← b.insert 3 .spider .black
    let b ← b.insert 4 .spider .black
    let b ← b.insert 5 .ant .black
    let b ← b.insert 6 .ant .black
    let b ← b.insert 7 .grasshopper .black
    pure { b with move_num := 1 }).getD defaultBoard

/-- The Zobrist contribution of one cell's whole tile stack: the XOR of
`zobrist(id, bug, color, height)` over every tile of the stack, each at its
own height. -/
def stackHash (id : Nat) : Option Tile → Nat
  | none => 0
  | some (Tile.mk bug color u) =>
    zobrist id bug color (Tile.mk bug color u).height ^^^ stackHash id u

/-- The XOR of the stack hashes of a list of cells, the first having id `i`. -/
def tilesHash : Nat → List (Option Tile) → Nat
  | _, [] => 0
  | i, t :: rest => stackHash i t ^^^ tilesHash (i + 1) rest

/-- The XOR, over every tile currently on the board, of its Zobrist word. -/
def boardHashSum (b : Board) : Nat :=
  tilesHash 0 (b.nodes.map (·.tile))

theorem reachable_play {b b' : Board} {ms : List Move} (hb : Reachable b)
    (h : play b ms = some b') : Reachable b' := by
  induction ms generalizing b with
  | nil =>
    simp only [play, Option.some.injEq] at h
    exact h ▸ hb
  | cons m rest ih =>
    simp only [play, stepChecked] at h
    rcases hgen : b.generate_moves with _ | l
    · rw [hgen] at h; exact absurd h (by simp)
    · rw [hgen] at h
      by_cases hm : m ∈ l
      · simp only [if_pos hm] at h
        rcases happ : m.apply b with _ | b1
        · rw [happ] at h; exact absurd h (by simp)
        · rw [happ] at h
          exact ih (Reachable.step hb hgen hm happ) h
      · simp [if_neg hm] at h

theorem opt_eq_some_getD {α : Type} (o : Option α) (d : α) (h : o.isSome = true) :
    o = some (o.getD d) := by
  cases o with
  | none => simp at h
  | some x => rfl

set_option maxRecDepth 40000

/-- C1.  The claim asserts that apply followed by undo restores every field
except append-only arena growth.  It fails at the very first generated move:
undoing `Place(1, Queen)` removes the tile and restores the reserve, the
move counter, the hash and the history, but `Move::undo` never resets the
`queens` cache that `Board::insert` set, so `queens` ends as `[1, 0]` where
the original position had `[0, 0]`. -/
theorem c1_queens_not_restored :
    Reachable defaultBoard ∧
    queenOpening ∈ defaultBoard.generate_moves.getD [] ∧
    (queenOpening.apply defaultBoard).bind queenOpening.undo = some undoneQueenBoard ∧
    defaultBoard.queens = [0, 0] ∧
    undoneQueenBoard.queens = [1, 0] ∧
    undoneQueenBoard.move_num = defaultBoard.move_num ∧
    undoneQueenBoard.zobrist_hash = defaultBoard.zobrist_hash ∧
    undoneQueenBoard.zobrist_history = defaultBoard.zobrist_history ∧
    undoneQueenBoard.remaining = defaultBoard.remaining :=
  ⟨Reachable.base, by decide,
    opt_eq_some_getD ((queenOpening.apply defaultBoard).bind queenOpening.undo) defaultBoard
      (by decide),
    rfl, by decide, rfl, by decide, rfl, by decide⟩

/-- C2.  In the search-reachable state obtained by applying the generated
queen placement and undoing it, the queen cache of Black is the non-sentinel
id 1, yet node 1 holds no tile at all: the cache points at a cell from which
the queen placement has been undone, violating the claimed invariant. -/
theorem c2_stale_queen_cache :
    SReach undoneQueenBoard [] ∧
    undoneQueenBoard.queens.getD 0 0 = 1 ∧
    undoneQueenBoard.get 1 = none :=
  ⟨SReach.und
      (SReach.app SReach.base rfl (by decide)
        (opt_eq_some_getD (queenOpening.apply defaultBoard) defaultBoard (by decide)))
      (by
        refine Eq.trans ?_ (opt_eq_some_getD
          ((queenOpening.apply defaultBoard).bind queenOpening.undo) defaultBoard (by decide))
        rfl),
    by decide, rfl⟩

/-- C6.  Counterexample to "whenever queen_required() holds, every move
emitted by generate_moves is a Place of the Queen bug": in the reachable
position after Black walls its lone ant in between two White tiles, the
queen is overdue but no legal queen placement exists, and `generate_moves`
emits the single move `Pass`, which is not a queen placement. -/
theorem c6_pass_under_queen_required :
    Reachable c6Board ∧
    c6Board.queen_required = true ∧
    c6Board.generate_moves = some [Move.pass] :=
  ⟨reachable_play Reachable.base
      (opt_eq_some_getD (play defaultBoard c6moves) defaultBoard (by decide)),
    by decide, by decide⟩

/-- C3.  Counterexample to the claimed evaluation order of `get_winner`: in
this reachable position the Black queen has all six neighbours occupied
(`queens_surrounded = [6, 4]`, so not a `[6, 6]` draw), the current hash
equals `hash_history[n - 5]`, and `get_winner` reports the repetition Draw
rather than the win the claim predicts — the code checks repetition first,
not last. -/
theorem c3_repetition_beats_surround :
    Reachable c3Board ∧
    c3Board.queens_surrounded = [6, 4] ∧
    c3Board.repetition ∧
    c3Board.get_winner = some Winner.draw :=
  ⟨reachable_play Reachable.base
      (opt_eq_some_getD (play defaultBoard c3moves) defaultBoard (by decide)),
    by decide, by decide, by decide⟩

/-- C4.  Counterexample: with White to move, the queen of the opponent of
the side to move (Black) has all six neighbours occupied while White's queen
does not, yet `get_winner` returns `Competitor(Opponent)` — the ToMoveWins
outcome, not the JustMovedWins outcome the claim predicts.  (Surrounding
one's own queen loses; the side to move wins.) -/
theorem c4_tomove_wins_not_justmoved :
    c4Board.to_move = Color.white ∧
    c4Board.queens_surrounded = [6, 3] ∧
    c4Board.get_winner = some Winner.competitorOpponent ∧
    Winner.competitorOpponent ≠ winnerJustMoved :=
  ⟨by decide, by decide, by decide, by decide⟩

theorem foldl_bits_lt (f : Nat → Nat) (hf : ∀ x, f x ≤ 1) :
    ∀ (l : List Nat) (acc : Nat),
      l.foldl (fun a x => a * 2 + f x) acc < (acc + 1) * 2 ^ l.length := by
  intro l
  induction l with
  | nil =>
    intro acc
    simp only [List.foldl_nil, List.length_nil, pow_zero, mul_one]
    exact Nat.lt_succ_self acc
  | cons x l ih =>
    intro acc
    simp only [List.foldl_cons, List.length_cons]
    calc l.foldl (fun a x => a * 2 + f x) (acc * 2 + f x)
        < (acc * 2 + f x + 1) * 2 ^ l.length := ih _
      _ ≤ ((acc + 1) * 2) * 2 ^ l.length := by
          have := hf x
          exact Nat.mul_le_mul_right _ (by omega)
      _ = (acc + 1) * 2 ^ (l.length + 1) := by ring

theorem foldl_append_length {α β : Type} (p : α → Bool) (g : α → β) :
    ∀ (l : List α) (acc : List β),
      (l.foldl (fun acc i => if p i then acc ++ [g i] else acc) acc).length
        = acc.length + l.countP p := by
  intro l
  induction l with
  | nil => simp
  | cons x l ih =>
    intro acc
    simp only [List.foldl_cons, List.countP_cons]
    cases h : p x
    · simp [h, ih]
    · simp [h, ih]
      omega

theorem slideMask_count (occ : Nat) (hocc : occ < 64) :
    (List.finRange 6).countP
        (fun i => (slideMask occ >>> (i.val + 1)) &&& 1 != 0) = 0 ∨
      (List.finRange 6).countP
        (fun i => (slideMask occ >>> (i.val + 1)) &&& 1 != 0) = 2 ∨
      (List.finRange 6).countP
        (fun i => (slideMask occ >>> (i.val + 1)) &&& 1 != 0) = 4 := by
  have h64 : ∀ o : Fin 64,
      (List.finRange 6).countP
          (fun i => (slideMask o.val >>> (i.val + 1)) &&& 1 != 0) = 0 ∨
        (List.finRange 6).countP
          (fun i => (slideMask o.val >>> (i.val + 1)) &&& 1 != 0) = 2 ∨
        (List.finRange 6).countP
          (fun i => (slideMask o.val >>> (i.val + 1)) &&& 1 != 0) = 4 := by
    decide
  exact h64 ⟨occ, hocc⟩

/-- C7.  For every board and every pair of origin and pivot ids,
`slideable_adjacent` emits 0, 2 or 4 neighbours — never 1, 3, 5 or 6 — and
in particular at most 4, so every result fits the 4-slot output array and
the internal write index never exceeds 3.  The count is a function of the
6-bit occupancy mask alone, and all 64 masks are checked exhaustively. -/
theorem c7_slideable_adjacent_counts (b : Board) (origin id : Nat) :
    ((b.slideable_adjacent origin id).length = 0 ∨
      (b.slideable_adjacent origin id).length = 2 ∨
      (b.slideable_adjacent origin id).length = 4) ∧
    (b.slideable_adjacent origin id).length ≤ 4 := by
  have hocc : (((List.finRange 6).map (b.adjacentIds id)).reverse.foldl
      (fun acc nb => acc * 2 + b.occupiedBit origin nb) 0) < 64 := by
    have h := foldl_bits_lt (b.occupiedBit origin)
      (fun x => by unfold Board.occupiedBit; split <;> omega)
      (((List.finRange 6).map (b.adjacentIds id)).reverse) 0
    simp only [List.length_reverse, List.length_map, List.length_finRange] at h
    omega
  have hlen : (b.slideable_adjacent origin id).length
      = (List.finRange 6).countP
          (fun i => (slideMask
              (((List.finRange 6).map (b.adjacentIds id)).reverse.foldl
                (fun acc nb => acc * 2 + b.occupiedBit origin nb) 0) >>> (i.val + 1)) &&& 1
            != 0) := by
    simp only [Board.slideable_adjacent, foldl_append_length, List.length_nil, Nat.zero_add]
  have h := slideMask_count _ hocc
  rw [hlen]
  constructor
  · exact h
  · rcases h with h | h | h <;> omega

/-- Sanity check at a concrete input: on the default board, sliding out of
node 1 around node 1 finds no occupied walls, so the count is 0. -/
theorem slideable_adjacent_default_empty :
    (defaultBoard.slideable_adjacent 1 1).length = 0 :=
  by decide

/-- C3 (amended).  `get_winner` checks the repetition draw first; only when
the current hash does not match `hash_history[n - 5]` does a fully
surrounded queen produce a win (or the `[6, 6]` draw), in the code's branch
order. -/
theorem c3_amended_surround_outcomes (b : Board) (hrep : ¬ b.repetition)
    (hsur : b.queens_surrounded.getD 0 0 = 6 ∨ b.queens_surrounded.getD 1 0 = 6) :
    b.get_winner = some (
      if b.queens_surrounded = [6, 6] then Winner.draw
      else if b.queens_surrounded.getD (b.move_num % 2) 0 = 6 then winnerJustMoved
      else winnerToMove) := by
  unfold Board.repetition at hrep
  simp only [Board.get_winner, if_neg hrep]
  by_cases h66 : b.queens_surrounded = [6, 6]
  · simp [h66]
  · rw [if_neg h66, if_neg h66]
    by_cases hts : b.queens_surrounded.getD (b.move_num % 2) 0 = 6
    · rw [if_pos hts, if_pos hts]
      rfl
    · rw [if_neg hts, if_neg hts]
      have hop : b.queens_surrounded.getD ((b.move_num + 1) % 2) 0 = 6 := by
        rcases Nat.mod_two_eq_zero_or_one b.move_num with hm | hm
        · have h1 : (b.move_num + 1) % 2 = 1 := by omega
          rw [hm] at hts
          rw [h1]
          tauto
        · have h1 : (b.move_num + 1) % 2 = 0 := by omega
          rw [hm] at hts
          rw [h1]
          tauto
      rw [if_pos hop]
      rfl

/-- C3 (amended) witness: a concrete position with a fully surrounded Black
queen and no repetition, where the amended statement yields the win branch. -/
theorem c3_amended_surround_outcomes_witness :
    c4Board.get_winner = some (
      if c4Board.queens_surrounded = [6, 6] then Winner.draw
      else if c4Board.queens_surrounded.getD (c4Board.move_num % 2) 0 = 6 then winnerJustMoved
      else winnerToMove) :=
  c3_amended_surround_outcomes c4Board (by decide) (Or.inl (by decide))

/-- C4 (amended).  When the queen of the side that just moved has all six
neighbours occupied, the to-move side's queen does not, and the repetition
check does not fire, `get_winner` returns `Competitor(Opponent)` — the
ToMoveWins outcome: the just-moved side has surrounded its own queen and
loses. -/
theorem c4_amended_self_surround_loses (b : Board) (hrep : ¬ b.repetition)
    (hop : b.queens_surrounded.getD ((b.move_num + 1) % 2) 0 = 6)
    (hts : b.queens_surrounded.getD (b.move_num % 2) 0 ≠ 6) :
    b.get_winner = some winnerToMove := by
  unfold Board.repetition at hrep
  have h66 : b.queens_surrounded ≠ [6, 6] := by
    intro h
    rw [h] at hts
    rcases Nat.mod_two_eq_zero_or_one b.move_num with hm | hm <;> rw [hm] at hts <;> simp at hts
  simp only [Board.get_winner, if_neg hrep, if_neg h66, if_neg hts, if_pos hop]
  rfl

/-- C4 (amended) witness: at the concrete self-surrounded position,
`get_winner` indeed reports the ToMoveWins outcome. -/
theorem c4_amended_self_surround_loses_witness :
    c4Board.get_winner = some winnerToMove :=
  c4_amended_self_surround_loses c4Board (by decide) (by decide) (by decide)

theorem foldl_append_eq {α β : Type} (f : α → List β) :
    ∀ (l : List α) (acc : List β), l.foldl (fun a x => a ++ f x) acc = acc ++ l.flatMap f := by
  intro l
  induction l with
  | nil => simp
  | cons x l ih =>
    intro acc
    simp only [List.foldl_cons, List.flatMap_cons, ih, List.append_assoc]

theorem mem_foldl_append {α β : Type} (f : α → List β) (l : List α) (m : β) :
    m ∈ l.foldl (fun a x => a ++ f x) [] ↔ ∃ x ∈ l, m ∈ f x := by
  rw [foldl_append_eq, List.nil_append, List.mem_flatMap]

theorem foldlM_option_rel {α β : Type} (f : β → α → Option β) (R : β → β → Prop)
    (hrefl : ∀ x, R x x) (htrans : ∀ x y z, R x y → R y z → R x z)
    (hstep : ∀ x a y, f x a = some y → R x y) :
    ∀ (l : List α) (x y : β), l.foldlM f x = some y → R x y := by
  intro l
  induction l with
  | nil =>
    intro x y h
    simp only [List.foldlM_nil] at h
    cases h
    exact hrefl x
  | cons a l ih =>
    intro x y h
    simp only [List.foldlM_cons] at h
    rcases hz : f x a with _ | z
    · rw [hz] at h; exact absurd h (by simp)
    · rw [hz] at h
      rw [Option.bind_eq_bind] at h
      simp only [Option.some_bind] at h
      exact htrans _ _ _ (hstep x a z hz) (ih z y h)

/-- What every alloc-chain step preserves: the non-arena fields are
untouched, the arena only grows, and the added nodes carry no tiles. -/
def ArenaGrow (b b' : Board) : Prop :=
  b'.move_num = b.move_num ∧ b'.remaining = b.remaining ∧ b'.queens = b.queens ∧
  b'.zobrist_hash = b.zobrist_hash ∧ b'.zobrist_history = b.zobrist_history ∧
  b.nodes.length ≤ b'.nodes.length ∧
  b'.nodes.map (·.tile)
    = b.nodes.map (·.tile) ++ List.replicate (b'.nodes.length - b.nodes.length) none

theorem arenaGrow_refl (b : Board) : ArenaGrow b b := by
  refine ⟨rfl, rfl, rfl, rfl, rfl, le_refl _, ?_⟩
  rw [Nat.sub_self, List.replicate_zero, List.append_nil]

theorem arenaGrow_trans {a b c : Board} (h1 : ArenaGrow a b) (h2 : ArenaGrow b c) :
    ArenaGrow a c := by
  obtain ⟨m1, r1, q1, z1, h1', l1, t1⟩ := h1
  obtain ⟨m2, r2, q2, z2, h2', l2, t2⟩ := h2
  refine ⟨m2.trans m1, r2.trans r1, q2.trans q1, z2.trans z1, h2'.trans h1',
    l1.trans l2, ?_⟩
  rw [t2, t1, List.append_assoc, ← List.replicate_add]
  congr 2
  omega

theorem set_adj_map_tile (ns : List Node) (i : Nat) (a : Fin 6 → Nat) :
    (ns.set i { ns.getD i emptyNode with adj := a }).map (·.tile) = ns.map (·.tile) := by
  by_cases h : i < ns.length
  · rw [List.map_set]
    have hg : ns.getD i emptyNode = ns[i] := by
      rw [List.getD_eq_getElem?_getD, List.getElem?_eq_getElem h]
      rfl
    rw [hg]
    apply List.ext_getElem?
    intro j
    rw [List.getElem?_set]
    split
    · next heq =>
      subst heq
      simp [h]
    · rfl
  · rw [List.set_eq_of_length_le (by omega)]

theorem foldl_invariant {α σ : Type} (step : σ → α → σ) (P : σ → Prop)
    (hstep : ∀ s a, P s → P (step s a)) :
    ∀ (l : List α) (s : σ), P s → P (l.foldl step s) := by
  intro l
  induction l with
  | nil => intro s h; exact h
  | cons a l ih => intro s h; exact ih _ (hstep s a h)

theorem allocLink_invariant (locToId : List (Loc × Nat)) (l : Loc) (newId : Nat)
    (ns : List Node) (st : (Fin 6 → Nat) × List Node) (a : Fin 6)
    (h : st.2.map (·.tile) = ns.map (·.tile) ∧ st.2.length = ns.length) :
    ((allocLink locToId l newId st a).2.map (·.tile) = ns.map (·.tile) ∧
      (allocLink locToId l newId st a).2.length = ns.length) := by
  unfold allocLink
  rcases lookupLoc locToId (adjacent l a) with _ | j
  · exact h
  · constructor
    · rw [set_adj_map_tile, h.1]
    · rw [List.length_set, h.2]

theorem alloc_arenaGrow {b : Board} {l : Loc} {id : Nat} {b' : Board}
    (h : b.alloc l = some (id, b')) : ArenaGrow b b' := by
  unfold Board.alloc at h
  rcases hx : lookupLoc b.loc_to_id l with _ | i
  · rw [hx] at h
    by_cases hlen : 256 ≤ b.nodes.length
    · rw [if_pos hlen] at h
      exact absurd h (by simp)
    · rw [if_neg hlen] at h
      simp only [Option.some.injEq, Prod.mk.injEq] at h
      obtain ⟨-, h2⟩ := h
      subst h2
      obtain ⟨ht, hl⟩ := foldl_invariant
        (allocLink ((l, b.nodes.length) :: b.loc_to_id) l b.nodes.length)
        (fun st => st.2.map (·.tile) = b.nodes.map (·.tile) ∧ st.2.length = b.nodes.length)
        (allocLink_invariant _ _ _ _)
        (List.finRange 6) (fun _ => UNASSIGNED, b.nodes) ⟨rfl, rfl⟩
      refine ⟨rfl, rfl, rfl, rfl, rfl, ?_, ?_⟩
      · simp only [List.length_append, List.length_singleton]
        omega
      · simp only [List.map_append, List.map_cons, List.map_nil, ht,
          List.length_append, List.length_singleton, hl]
        congr 1
        have h1 : b.nodes.length + 1 - b.nodes.length = 1 := by omega
        rw [h1]
        rfl
  · rw [hx] at h
    simp only [Option.some.injEq, Prod.mk.injEq] at h
    obtain ⟨-, h2⟩ := h
    subst h2
    exact arenaGrow_refl b

theorem alloc_surrounding_arenaGrow {b b' : Board} {id : Nat}
    (h : b.alloc_surrounding id = some b') : ArenaGrow b b' := by
  refine foldlM_option_rel _ ArenaGrow arenaGrow_refl (fun _ _ _ => arenaGrow_trans)
    ?_ (List.finRange 6) b b' h
  intro x i y hstep
  by_cases hc : x.adjacentIds id i = UNASSIGNED
  · rw [if_pos hc] at hstep
    rcases ha : x.alloc (adjacent (x.loc id) i) with _ | p
    · rw [ha] at hstep; exact absurd hstep (by simp)
    · rw [ha] at hstep
      simp only [Option.map_eq_some'] at hstep
      obtain ⟨q, hq, hqy⟩ := hstep
      cases hq
      subst hqy
      exact alloc_arenaGrow ha
  · rw [if_neg hc] at hstep
    cases hstep
    exact arenaGrow_refl x

theorem get_setTile_self {b : Board} {id : Nat} (t : Option Tile) (h : id < b.nodes.length) :
    (b.setTile id t).get id = t := by
  unfold Board.setTile Board.get
  simp only [List.getD_eq_getElem?_getD, List.getElem?_set]
  simp [h]

theorem insert_fields {b : Board} {id : Nat} {bug : Bug} {c : Color} {b1 : Board}
    (h : b.insert id bug c = some b1) :
    b1.move_num = b.move_num ∧ b1.remaining = b.remaining ∧
    b1.zobrist_history = b.zobrist_history ∧
    b.nodes.length ≤ b1.nodes.length ∧ id < b1.nodes.length ∧ (b1.get id).isSome = true := by
  unfold Board.insert at h
  by_cases hlen : b.nodes.length ≤ id
  · rw [if_pos hlen] at h
    exact absurd h (by simp)
  · rw [if_neg hlen] at h
    push_neg at hlen
    rcases hx : (b.nodes.getD id emptyNode).tile with _ | prev
    · rw [hx] at h
      rcases hs : b.alloc_surrounding id with _ | b0
      · rw [hs] at h
        exact absurd h (by simp)
      · rw [hs] at h
        simp only [Option.some.injEq] at h
        obtain ⟨hmn, hrema, -, -, hhist, hle, -⟩ := alloc_surrounding_arenaGrow hs
        have hid : id < b0.nodes.length := lt_of_lt_of_le hlen hle
        by_cases hq : bug = Bug.queen
        · rw [if_pos hq] at h
          subst h
          refine ⟨hmn, hrema, hhist, ?_, ?_, ?_⟩
          · simp only [Board.setTile, List.length_set]
            exact hle
          · simp only [Board.setTile, List.length_set]
            exact hid
          · have hg := @get_setTile_self b0 id
              (some (Tile.mk bug c none)) hid
            simp only [Board.get, Board.setTile] at hg ⊢
            rw [hg]
            rfl
        · rw [if_neg hq] at h
          subst h
          refine ⟨hmn, hrema, hhist, ?_, ?_, ?_⟩
          · simp only [Board.setTile, List.length_set]
            exact hle
          · simp only [Board.setTile, List.length_set]
            exact hid
          · have hg := @get_setTile_self b0 id
              (some (Tile.mk bug c none)) hid
            simp only [Board.get, Board.setTile] at hg ⊢
            rw [hg]
            rfl
    · rw [hx] at h
      simp only [Option.some.injEq] at h
      by_cases hq : bug = Bug.queen
      · rw [if_pos hq] at h
        subst h
        refine ⟨rfl, rfl, rfl, ?_, ?_, ?_⟩
        · simp only [Board.setTile, List.length_set]
          exact le_refl _
        · simp only [Board.setTile, List.length_set]
          exact hlen
        · have hg := @get_setTile_self b id
            (some (Tile.mk bug c (some prev))) hlen
          simp only [Board.get, Board.setTile] at hg ⊢
          rw [hg]
          rfl
      · rw [if_neg hq] at h
        subst h
        refine ⟨rfl, rfl, rfl, ?_, ?_, ?_⟩
        · simp only [Board.setTile, List.length_set]
          exact le_refl _
        · simp only [Board.setTile, List.length_set]
          exact hlen
        · have hg := @get_setTile_self b id
            (some (Tile.mk bug c (some prev))) hlen
          simp only [Board.get, Board.setTile] at hg ⊢
          rw [hg]
          rfl

theorem remove_fields {b : Board} {id : Nat} {t : Tile} {b1 : Board}
    (h : b.remove id = some (t, b1)) :
    b1.move_num = b.move_num ∧ b1.remaining = b.remaining ∧ b1.queens = b.queens ∧
    b1.zobrist_history = b.zobrist_history ∧ b1.nodes.length = b.nodes.length := by
  unfold Board.remove at h
  rcases hx : (b.nodes.getD id emptyNode).tile with _ | tt
  · rw [hx] at h
    exact absurd h (by simp)
  · rw [hx] at h
    obtain ⟨bg, cl, u⟩ := tt
    simp only [Tile.bug, Tile.color, Tile.underneath, Option.some.injEq,
      Prod.mk.injEq] at h
    obtain ⟨-, h2⟩ := h
    subst h2
    cases u
    · exact ⟨rfl, rfl, rfl, rfl, by simp [Board.setTile, List.length_set]⟩
    · exact ⟨rfl, rfl, rfl, rfl, by simp [Board.setTile, List.length_set]⟩

theorem apply_pass_decomp {b b' : Board} (h : Move.pass.apply b = some b') :
    b' = finishApply b := by
  simp only [Move.apply] at h
  simp only [Option.some.injEq] at h
  exact h.symm

theorem apply_place_decomp {b b' : Board} {id : Nat} {bug : Bug}
    (h : (Move.place id bug).apply b = some b') :
    ∃ b1, b.insert id bug b.to_move = some b1 ∧
      b1.get_remaining.getD bug.toNat 0 ≠ 0 ∧
      b' = finishApply { b1 with
        remaining := b1.remaining.set (b1.move_num % 2)
          (b1.get_remaining.set bug.toNat (b1.get_remaining.getD bug.toNat 0 - 1)) } := by
  simp only [Move.apply] at h
  rcases hins : b.insert id bug b.to_move with _ | b1
  · rw [hins] at h
    exact absurd h (by simp)
  · rw [hins] at h
    simp only [Option.some_bind] at h
    by_cases hr : b1.get_remaining.getD bug.toNat 0 = 0
    · rw [if_pos hr] at h
      exact absurd h (by simp)
    · rw [if_neg hr] at h
      simp only [Option.some.injEq] at h
      exact ⟨b1, rfl, hr, h.symm⟩

theorem apply_movement_decomp {b b' : Board} {s e : Nat}
    (h : (Move.movement s e).apply b = some b') :
    ∃ p : Tile × Board, b.remove s = some p ∧
      ∃ b2, p.2.insert e p.1.bug p.1.color = some b2 ∧ b' = finishApply b2 := by
  simp only [Move.apply] at h
  rcases hrem : b.remove s with _ | p
  · rw [hrem] at h
    exact absurd h (by simp)
  · rw [hrem] at h
    simp only [Option.some_bind] at h
    rcases hins : p.2.insert e p.1.bug p.1.color with _ | b2
    · rw [hins] at h
      exact absurd h (by simp)
    · rw [hins] at h
      simp only [Option.map_some', Option.some.injEq] at h
      exact ⟨p, rfl, b2, hins, h.symm⟩

theorem finishApply_move_num (b : Board) : (finishApply b).move_num = b.move_num + 1 := rfl

theorem apply_move_num {m : Move} {b b' : Board} (h : m.apply b = some b') :
    b'.move_num = b.move_num + 1 := by
  cases m with
  | place id bug =>
    obtain ⟨b1, hins, -, hb'⟩ := apply_place_decomp h
    obtain ⟨hmn, -, -, -, -, -⟩ := insert_fields hins
    subst hb'
    simp only [finishApply]
    omega
  | movement s e =>
    obtain ⟨p, hrem, b2, hins, hb'⟩ := apply_movement_decomp h
    obtain ⟨hmn1, -, -, -, -⟩ := remove_fields hrem
    obtain ⟨hmn2, -, -, -, -, -⟩ := insert_fields hins
    subst hb'
    simp only [finishApply]
    omega
  | pass =>
    rw [apply_pass_decomp h]
    rfl

theorem mem_placementBugs {b : Board} {id : Nat} {m : Move}
    (h : m ∈ b.placementBugs id) :
    ∃ q ∈ b.get_available_bugs, m = Move.place id q.1 ∧ 0 < q.2 ∧
      (b.queen_required = true → q.1 = Bug.queen) := by
  unfold Board.placementBugs at h
  rw [mem_foldl_append] at h
  obtain ⟨q, hq, hm⟩ := h
  refine ⟨q, hq, ?_⟩
  by_cases h1 : b.queen_required ∧ q.1 ≠ Bug.queen
  · rw [if_pos h1] at hm
    simp at hm
  · rw [if_neg h1] at hm
    by_cases h2 : 0 < q.2
    · rw [if_pos h2] at hm
      simp only [List.mem_singleton] at hm
      refine ⟨hm, h2, fun hqr => ?_⟩
      by_contra hne
      exact h1 ⟨hqr, hne⟩
    · rw [if_neg h2] at hm
      simp at hm

theorem queen_mem_available {b : Board} {q : Bug × Nat}
    (hq : q ∈ b.get_available_bugs) (hqueen : q.1 = Bug.queen) :
    q.2 = b.get_remaining.getD 0 0 := by
  unfold Board.get_available_bugs at hq
  simp only [List.mem_cons, List.not_mem_nil, or_false] at hq
  rcases hq with h | h | h | h | h
  · rw [h]
  all_goals (rw [h] at hqueen; exact absurd hqueen (by simp))

theorem mem_generate_placements {b : Board} {m : Move}
    (h : m ∈ b.generate_placements) :
    ∃ id bug, m = Move.place id bug ∧
      (bug = Bug.queen → 0 < b.get_remaining.getD 0 0) ∧
      (b.queen_required = true → bug = Bug.queen) := by
  unfold Board.generate_placements at h
  rw [mem_foldl_append] at h
  obtain ⟨p, -, hm⟩ := h
  unfold Board.placementsFor at hm
  by_cases h1 : p.2.tile.isSome
  · rw [if_pos h1] at hm
    simp at hm
  · rw [if_neg h1] at hm
    simp only [] at hm
    split_ifs at hm with h2
    · obtain ⟨q, hq, hmq, hq2, hqr⟩ := mem_placementBugs hm
      refine ⟨p.1, q.1, hmq, ?_, hqr⟩
      intro hqueen
      rw [← queen_mem_available hq hqueen]
      exact hq2
    · simp at hm

theorem mem_generate_stack_walking {b : Board} {id : Nat} {m : Move}
    (h : m ∈ b.generate_stack_walking id) : ∃ e, m = Move.movement id e := by
  unfold Board.generate_stack_walking at h
  rw [List.mem_map] at h
  obtain ⟨i, -, hm⟩ := h
  exact ⟨_, hm.symm⟩

theorem mem_generate_jumps {b : Board} {id : Nat} {m : Move}
    (h : m ∈ b.generate_jumps id) : ∃ e, m = Move.movement id e := by
  unfold Board.generate_jumps at h
  rw [mem_foldl_append] at h
  obtain ⟨dir, -, hm⟩ := h
  simp only [] at hm
  split_ifs at hm
  · simp only [List.mem_singleton] at hm
    exact ⟨_, hm⟩
  · simp at hm

theorem mem_generate_walk_up {b : Board} {id : Nat} {m : Move}
    (h : m ∈ b.generate_walk_up id) : ∃ e, m = Move.movement id e := by
  unfold Board.generate_walk_up at h
  rw [mem_foldl_append] at h
  obtain ⟨i, -, hm⟩ := h
  simp only [] at hm
  split_ifs at hm
  · simp only [List.mem_singleton] at hm
    exact ⟨_, hm⟩
  · simp at hm

theorem mem_generate_walk1 {b : Board} {id : Nat} {m : Move}
    (h : m ∈ b.generate_walk1 id) : ∃ e, m = Move.movement id e := by
  unfold Board.generate_walk1 at h
  rw [List.mem_map] at h
  obtain ⟨n, -, hm⟩ := h
  exact ⟨_, hm.symm⟩

theorem mem_walk3dfs {b : Board} {orig : Nat} {m : Move} :
    ∀ {fuel id : Nat} {path : List Nat}, m ∈ walk3dfs b orig fuel id path →
      ∃ e, m = Move.movement orig e := by
  intro fuel
  induction fuel with
  | zero => intro id path h; simp [walk3dfs] at h
  | succ fuel ih =>
    intro id path h
    unfold walk3dfs at h
    by_cases h1 : path.contains id
    · rw [if_pos h1] at h
      simp at h
    · rw [if_neg h1] at h
      by_cases h2 : path.length = 3
      · rw [if_pos h2] at h
        simp only [List.mem_singleton] at h
        exact ⟨_, h⟩
      · rw [if_neg h2] at h
        rw [mem_foldl_append] at h
        obtain ⟨node, -, hm⟩ := h
        exact ih hm

theorem mem_generate_walk3 {b : Board} {orig : Nat} {m : Move}
    (h : m ∈ b.generate_walk3 orig) : ∃ e, m = Move.movement orig e := by
  unfold Board.generate_walk3 at h
  exact mem_walk3dfs h

theorem mem_walkAllLoop {b : Board} {orig : Nat} {m : Move} :
    ∀ {fuel : Nat} {visited : Nat → Bool} {queue : List Nat},
      m ∈ walkAllLoop b orig fuel visited queue → ∃ e, m = Move.movement orig e := by
  intro fuel
  induction fuel with
  | zero => intro visited queue h; simp [walkAllLoop] at h
  | succ fuel ih =>
    intro visited queue h
    unfold walkAllLoop at h
    split at h
    · simp at h
    · split_ifs at h with h1 h2
      · exact ih h
      · rw [List.mem_append] at h
        rcases h with h | h
        · simp only [List.mem_singleton] at h
          exact ⟨_, h⟩
        · exact ih h
      · rw [List.mem_append] at h
        rcases h with h | h
        · simp at h
        · exact ih h

theorem mem_generate_walk_all {b : Board} {orig : Nat} {m : Move}
    (h : m ∈ b.generate_walk_all orig) : ∃ e, m = Move.movement orig e := by
  unfold Board.generate_walk_all at h
  exact mem_walkAllLoop h

theorem mem_movementsFor {b : Board} {imm : Nat → Bool} {p : Nat × Node} {m : Move}
    (h : m ∈ b.movementsFor imm p) : ∃ s e, m = Move.movement s e := by
  unfold Board.movementsFor at h
  split at h
  · simp at h
  · split_ifs at h
    · simp at h
    · obtain ⟨e, hm⟩ := mem_generate_stack_walking h
      exact ⟨_, _, hm⟩
    · simp at h
    · split at h
      · obtain ⟨e, hm⟩ := mem_generate_walk1 h
        exact ⟨_, _, hm⟩
      · obtain ⟨e, hm⟩ := mem_generate_jumps h
        exact ⟨_, _, hm⟩
      · obtain ⟨e, hm⟩ := mem_generate_walk3 h
        exact ⟨_, _, hm⟩
      · obtain ⟨e, hm⟩ := mem_generate_walk_all h
        exact ⟨_, _, hm⟩
      · rw [List.mem_append] at h
        rcases h with h | h
        · obtain ⟨e, hm⟩ := mem_generate_walk1 h
          exact ⟨_, _, hm⟩
        · obtain ⟨e, hm⟩ := mem_generate_walk_up h
          exact ⟨_, _, hm⟩

theorem mem_generate_movements {b : Board} {l : List Move} {m : Move}
    (hl : b.generate_movements = some l) (h : m ∈ l) :
    ∃ s e, m = Move.movement s e := by
  unfold Board.generate_movements at hl
  rw [Option.map_eq_some'] at hl
  obtain ⟨imm, -, hfold⟩ := hl
  subst hfold
  rw [mem_foldl_append] at h
  obtain ⟨p, -, hm⟩ := h
  exact mem_movementsFor hm

theorem move_num_lt_two_of_queen_required {b : Board} (h : b.queen_required = true) :
    ¬ b.move_num < 2 := by
  unfold Board.queen_required at h
  simp only [Bool.and_eq_true, decide_eq_true_eq] at h
  omega

theorem genBase_queen_required {b : Board} {l : List Move} (hqr : b.queen_required = true)
    (h : b.genBase = some l) : l = b.generate_placements := by
  unfold Board.genBase at h
  rw [if_neg (move_num_lt_two_of_queen_required hqr), if_pos hqr] at h
  simp only [Option.some.injEq] at h
  exact h.symm

theorem genBase_opening {b : Board} {l : List Move} (h2 : b.move_num < 2)
    (h : b.genBase = some l) :
    l = b.get_available_bugs.map (fun p => Move.place (b.move_num + 1) p.1) := by
  unfold Board.genBase at h
  rw [if_pos h2] at h
  simp only [Option.some.injEq] at h
  exact h.symm

theorem genBase_no_pass {b : Board} {l : List Move} (h : b.genBase = some l) :
    Move.pass ∉ l := by
  intro hm
  unfold Board.genBase at h
  by_cases h2 : b.move_num < 2
  · rw [if_pos h2] at h
    simp only [Option.some.injEq] at h
    subst h
    rw [List.mem_map] at hm
    obtain ⟨p, -, hp⟩ := hm
    simp at hp
  · rw [if_neg h2] at h
    by_cases h3 : b.queen_required = true
    · rw [if_pos h3] at h
      simp only [Option.some.injEq] at h
      subst h
      obtain ⟨id, bug, hm', -, -⟩ := mem_generate_placements hm
      simp at hm'
    · rw [if_neg h3] at h
      rw [Option.map_eq_some'] at h
      obtain ⟨mv, hmv, hl⟩ := h
      subst hl
      rw [List.mem_append] at hm
      rcases hm with hm | hm
      · obtain ⟨id, bug, hm', -, -⟩ := mem_generate_placements hm
        simp at hm'
      · obtain ⟨s, e, hm'⟩ := mem_generate_movements hmv hm
        simp at hm'

theorem generate_moves_structure {b : Board} {l : List Move}
    (h : b.generate_moves = some l) :
    ∃ ms, b.genBase = some ms ∧ l = (if ms.isEmpty then [Move.pass] else ms) := by
  unfold Board.generate_moves at h
  rw [Option.map_eq_some'] at h
  obtain ⟨ms, hms, hl⟩ := h
  exact ⟨ms, hms, hl.symm⟩

theorem gen_opening_shape {b : Board} {l : List Move} {m : Move}
    (h2 : b.move_num < 2) (h : b.generate_moves = some l) (hm : m ∈ l) :
    ∃ bug, m = Move.place (b.move_num + 1) bug := by
  obtain ⟨ms, hms, hl⟩ := generate_moves_structure h
  have hop := genBase_opening h2 hms
  subst hop
  subst hl
  rw [if_neg (by simp [Board.get_available_bugs])] at hm
  rw [List.mem_map] at hm
  obtain ⟨p, -, hp⟩ := hm
  exact ⟨p.1, hp.symm⟩

theorem reachable_move_num_zero {b : Board} (hb : Reachable b) (h0 : b.move_num = 0) :
    b = defaultBoard := by
  cases hb with
  | base => rfl
  | step hb hgen hmem happ =>
    have := apply_move_num happ
    omega

theorem default_generate_moves :
    defaultBoard.generate_moves = some
      [Move.place 1 Bug.queen, Move.place 1 Bug.grasshopper, Move.place 1 Bug.spider,
       Move.place 1 Bug.ant, Move.place 1 Bug.beetle] := by decide

theorem reachable_opening_queen_reserve {b : Board} (hb : Reachable b)
    (hlt : b.move_num < 2) : b.get_remaining.getD 0 0 = 1 := by
  cases hb with
  | base => decide
  | step hb hgen hmem happ =>
    rename_i b0 ms m
    have hmn := apply_move_num happ
    have hb0 : b0 = defaultBoard := reachable_move_num_zero hb (by omega)
    subst hb0
    rw [default_generate_moves] at hgen
    simp only [Option.some.injEq] at hgen
    subst hgen
    have hb' : b = (m.apply defaultBoard).getD defaultBoard := by
      have h2 := opt_eq_some_getD (m.apply defaultBoard) defaultBoard (by rw [happ]; rfl)
      exact Option.some_inj.mp (happ.symm.trans h2)
    simp only [List.mem_cons, List.not_mem_nil, or_false] at hmem
    rcases hmem with h | h | h | h | h <;> subst h <;> rw [hb'] <;> decide

theorem reachable_hasTile {b : Board} (hb : Reachable b) :
    2 ≤ b.move_num → ∃ id, id < b.nodes.length ∧ (b.get id).isSome = true := by
  induction hb with
  | base => intro h2; exact absurd h2 (by decide)
  | step hb hgen hmem happ ih =>
    rename_i b0 b' ms m
    intro h2
    have hmn := apply_move_num happ
    cases m with
    | place id bug =>
      obtain ⟨b1, hins, -, hb'⟩ := apply_place_decomp happ
      obtain ⟨-, -, -, -, hid, hsome⟩ := insert_fields hins
      subst hb'
      exact ⟨id, hid, hsome⟩
    | movement s e =>
      obtain ⟨p, hrem, b2, hins, hb'⟩ := apply_movement_decomp happ
      obtain ⟨-, -, -, -, hid, hsome⟩ := insert_fields hins
      subst hb'
      exact ⟨e, hid, hsome⟩
    | pass =>
      have hb' := apply_pass_decomp happ
      subst hb'
      by_cases h20 : 2 ≤ b0.move_num
      · obtain ⟨id, hid, hsome⟩ := ih h20
        exact ⟨id, hid, hsome⟩
      · -- b0.move_num = 1, but the opening only generates placements.
        have h1 : b0.move_num < 2 := by omega
        obtain ⟨bug, hpm⟩ := gen_opening_shape h1 hgen hmem
        simp at hpm

theorem reachable_gen_isSome {b : Board} (hb : Reachable b) :
    (b.generate_moves).isSome = true := by
  unfold Board.generate_moves
  rw [Option.isSome_map']
  unfold Board.genBase
  by_cases h2 : b.move_num < 2
  · rw [if_pos h2]
    rfl
  · rw [if_neg h2]
    by_cases hqr : b.queen_required = true
    · rw [if_pos hqr]
      rfl
    · rw [if_neg hqr]
      rw [Option.isSome_map']
      unfold Board.generate_movements
      rw [Option.isSome_map']
      unfold Board.find_cut_vertexes
      rw [Option.isSome_map']
      unfold Board.firstOccupied
      rw [List.find?_isSome]
      obtain ⟨id, hid, hsome⟩ := reachable_hasTile hb (by omega)
      exact ⟨id, List.mem_range.mpr hid, hsome⟩

/-- C9.  In every reachable position, `generate_moves` succeeds: whenever
the movement branch is taken (`move_num ≥ 2`, queen not overdue), the board
holds at least one tile, so the first-occupied-node selection
(`find_cut_vertexes`' internal unwrap) cannot panic. -/
theorem c9_generate_moves_total {b : Board} (hb : Reachable b) :
    (2 ≤ b.move_num → (b.firstOccupied).isSome = true) ∧
    (b.generate_moves).isSome = true := by
  constructor
  · intro h2
    unfold Board.firstOccupied
    rw [List.find?_isSome]
    obtain ⟨id, hid, hsome⟩ := reachable_hasTile hb h2
    exact ⟨id, List.mem_range.mpr hid, hsome⟩
  · exact reachable_gen_isSome hb

/-- C9 witness: the default position. -/
theorem c9_generate_moves_total_witness :
    (2 ≤ defaultBoard.move_num → (defaultBoard.firstOccupied).isSome = true) ∧
    (defaultBoard.generate_moves).isSome = true :=
  c9_generate_moves_total Reachable.base

/-- C5.  In every reachable position `generate_moves` succeeds and produces
at least one move; the produced list is exactly `[Pass]` precisely when the
branch before the Pass fallback generated nothing, and `Pass` appears in the
list only in that case. -/
theorem c5_generate_moves_pass (b : Board) (hb : Reachable b) :
    ∃ l, b.generate_moves = some l ∧ 1 ≤ l.length ∧
      ((l = [Move.pass]) ↔ b.genBase = some []) ∧
      (Move.pass ∈ l → l = [Move.pass]) := by
  obtain ⟨l, hl⟩ := Option.isSome_iff_exists.mp (reachable_gen_isSome hb)
  obtain ⟨ms, hms, hshape⟩ := generate_moves_structure hl
  refine ⟨l, hl, ?_, ?_, ?_⟩
  · subst hshape
    by_cases he : ms.isEmpty
    · rw [if_pos he]
      decide
    · rw [if_neg he]
      rcases ms with _ | ⟨x, ms⟩
      · simp at he
      · simp
  · constructor
    · intro hpass
      subst hshape
      by_cases he : ms.isEmpty
      · rw [List.isEmpty_iff] at he
        rw [he] at hms
        exact hms
      · rw [if_neg he] at hpass
        subst hpass
        exact absurd (by simp : Move.pass ∈ [Move.pass]) (genBase_no_pass hms)
    · intro hempty
      rw [hms] at hempty
      simp only [Option.some.injEq] at hempty
      subst hshape
      subst hempty
      rfl
  · intro hpass
    subst hshape
    by_cases he : ms.isEmpty
    · rw [if_pos he]
    · rw [if_neg he] at hpass
      exact absurd hpass (genBase_no_pass hms)

/-- C5 witness: the default position, whose move list is the five opening
placements (nonempty, no Pass). -/
theorem c5_generate_moves_pass_witness :
    ∃ l, defaultBoard.generate_moves = some l ∧ 1 ≤ l.length ∧
      ((l = [Move.pass]) ↔ defaultBoard.genBase = some []) ∧
      (Move.pass ∈ l → l = [Move.pass]) :=
  c5_generate_moves_pass defaultBoard Reachable.base

/-- C6 (amended).  In every reachable position: no queen placement is
emitted when the side to move's queen reserve is zero; and when
`queen_required` holds every emitted move is a queen placement, except for
the single `Pass` emitted when no queen placement is available. -/
theorem c6_amended_queen_placement (b : Board) (hb : Reachable b) :
    (b.get_remaining.getD 0 0 = 0 → ∀ l, b.generate_moves = some l →
      ∀ id, Move.place id Bug.queen ∉ l) ∧
    (b.queen_required = true → ∀ l, b.generate_moves = some l →
      ∀ m ∈ l, (∃ id, m = Move.place id Bug.queen) ∨ m = Move.pass) := by
  constructor
  · intro h0 l hgen id hm
    by_cases hlt : b.move_num < 2
    · have := reachable_opening_queen_reserve hb hlt
      omega
    · obtain ⟨ms, hms, hl⟩ := generate_moves_structure hgen
      subst hl
      by_cases he : ms.isEmpty
      · rw [if_pos he] at hm
        simp at hm
      · rw [if_neg he] at hm
        unfold Board.genBase at hms
        rw [if_neg hlt] at hms
        by_cases hqr : b.queen_required = true
        · rw [if_pos hqr] at hms
          simp only [Option.some.injEq] at hms
          subst hms
          obtain ⟨id2, bug, heq, hqres, -⟩ := mem_generate_placements hm
          injection heq with h1 h2
          rw [← h2] at hqres
          have := hqres rfl
          omega
        · rw [if_neg hqr] at hms
          rw [Option.map_eq_some'] at hms
          obtain ⟨mv, hmv, hms'⟩ := hms
          subst hms'
          rw [List.mem_append] at hm
          rcases hm with hm | hm
          · obtain ⟨id2, bug, heq, hqres, -⟩ := mem_generate_placements hm
            injection heq with h1 h2
            rw [← h2] at hqres
            have := hqres rfl
            omega
          · obtain ⟨s, e, heq⟩ := mem_generate_movements hmv hm
            simp at heq
  · intro hqr l hgen m hm
    obtain ⟨ms, hms, hl⟩ := generate_moves_structure hgen
    have hpl := genBase_queen_required hqr hms
    subst hl
    by_cases he : ms.isEmpty
    · rw [if_pos he] at hm
      simp only [List.mem_singleton] at hm
      exact Or.inr hm
    · rw [if_neg he] at hm
      rw [hpl] at hm
      obtain ⟨id, bug, heq, -, hq⟩ := mem_generate_placements hm
      exact Or.inl ⟨id, by rw [heq, hq hqr]⟩

/-- C6 (amended) witness: the default position. -/
theorem c6_amended_queen_placement_witness :
    (defaultBoard.get_remaining.getD 0 0 = 0 → ∀ l, defaultBoard.generate_moves = some l →
      ∀ id, Move.place id Bug.queen ∉ l) ∧
    (defaultBoard.queen_required = true → ∀ l, defaultBoard.generate_moves = some l →
      ∀ m ∈ l, (∃ id, m = Move.place id Bug.queen) ∨ m = Move.pass) :=
  c6_amended_queen_placement defaultBoard Reachable.base

theorem xor_xor_self_left (z p : Nat) : p ^^^ (z ^^^ p) = z := by
  rw [Nat.xor_comm z p, ← Nat.xor_assoc, Nat.xor_self, Nat.zero_xor]

theorem xor_xor_self_right (z p : Nat) : (z ^^^ p) ^^^ p = z := by
  rw [Nat.xor_assoc, Nat.xor_self, Nat.xor_zero]

theorem xor_left_swap (a b c : Nat) : a ^^^ (b ^^^ c) = b ^^^ (a ^^^ c) := by
  rw [← Nat.xor_assoc, Nat.xor_comm a b, Nat.xor_assoc]

theorem xor_cancel_nested (a b : Nat) : a ^^^ (a ^^^ b) = b := by
  rw [← Nat.xor_assoc, Nat.xor_self, Nat.zero_xor]

theorem tilesHash_append : ∀ (l1 l2 : List (Option Tile)) (i : Nat),
    tilesHash i (l1 ++ l2) = tilesHash i l1 ^^^ tilesHash (i + l1.length) l2 := by
  intro l1
  induction l1 with
  | nil =>
    intro l2 i
    simp [tilesHash]
  | cons t l1 ih =>
    intro l2 i
    simp only [List.cons_append, tilesHash, List.length_cons, List.append_eq, ih]
    rw [Nat.xor_assoc]
    have heq : i + 1 + l1.length = i + (l1.length + 1) := by omega
    rw [heq]

theorem tilesHash_replicate_none : ∀ (k i : Nat),
    tilesHash i (List.replicate k none) = 0 := by
  intro k
  induction k with
  | zero => intro i; rfl
  | succ k ih =>
    intro i
    simp only [List.replicate_succ, tilesHash, stackHash, ih]
    rfl

theorem tilesHash_set : ∀ (l : List (Option Tile)) (j i : Nat) (t : Option Tile),
    j < l.length →
    tilesHash i (l.set j t) = tilesHash i l ^^^
      (stackHash (i + j) (l.getD j none) ^^^ stackHash (i + j) t) := by
  intro l
  induction l with
  | nil => intro j i t h; simp at h
  | cons hd tl ih =>
    intro j i t h
    cases j with
    | zero =>
      simp only [List.set_cons_zero, tilesHash, List.getD_cons_zero, Nat.add_zero]
      rw [Nat.xor_assoc, xor_left_swap (stackHash i hd), xor_cancel_nested,
        Nat.xor_comm (tilesHash (i + 1) tl)]
    | succ j =>
      simp only [List.set_cons_succ, tilesHash, List.getD_cons_succ]
      rw [ih j (i + 1) t (by simp only [List.length_cons] at h; omega)]
      have heq : i + 1 + j = i + (j + 1) := by omega
      rw [heq, Nat.xor_assoc]

theorem map_tile_getD (ns : List Node) (id : Nat) :
    (ns.map (·.tile)).getD id none = (ns.getD id emptyNode).tile := by
  rw [List.getD_eq_getElem?_getD, List.getD_eq_getElem?_getD, List.getElem?_map]
  cases h : ns[id]? with
  | none => rfl
  | some nd => rfl

theorem boardHashSum_setTile {b : Board} {id : Nat} (t : Option Tile)
    (h : id < b.nodes.length) :
    boardHashSum (b.setTile id t)
      = boardHashSum b ^^^
        (stackHash id ((b.nodes.getD id emptyNode).tile) ^^^ stackHash id t) := by
  unfold boardHashSum Board.setTile
  simp only [List.map_set]
  rw [tilesHash_set (b.nodes.map (·.tile)) id 0 _ (by simpa using h)]
  rw [map_tile_getD]
  simp only [Nat.zero_add]

theorem insert_hash {b : Board} {id : Nat} {bug : Bug} {c : Color} {b1 : Board}
    (h : b.insert id bug c = some b1) :
    b1.zobrist_hash = b.zobrist_hash ^^^
      zobrist id bug c (Tile.mk bug c (b.nodes.getD id emptyNode).tile).height ∧
    boardHashSum b1 = boardHashSum b ^^^
      zobrist id bug c (Tile.mk bug c (b.nodes.getD id emptyNode).tile).height := by
  unfold Board.insert at h
  by_cases hlen : b.nodes.length ≤ id
  · rw [if_pos hlen] at h
    exact absurd h (by simp)
  · rw [if_neg hlen] at h
    push_neg at hlen
    rcases hx : (b.nodes.getD id emptyNode).tile with _ | prev
    · rw [hx] at h
      rcases hs : b.alloc_surrounding id with _ | b0
      · rw [hs] at h
        exact absurd h (by simp)
      · rw [hs] at h
        simp only [Option.some.injEq] at h
        obtain ⟨-, -, -, hz, -, hle, htiles⟩ := alloc_surrounding_arenaGrow hs
        have hid0 : id < b0.nodes.length := lt_of_lt_of_le hlen hle
        have hsum0 : boardHashSum b0 = boardHashSum b := by
          unfold boardHashSum
          rw [htiles, tilesHash_append, tilesHash_replicate_none, Nat.xor_zero]
        have hx0 : (b0.nodes.getD id emptyNode).tile = none := by
          rw [← map_tile_getD, htiles, List.getD_eq_getElem?_getD, List.getElem?_append,
            if_pos (by simpa using hlen), ← List.getD_eq_getElem?_getD, map_tile_getD, hx]
        have hsum1 : boardHashSum (b0.setTile id (some (Tile.mk bug c none)))
            = boardHashSum b ^^^ zobrist id bug c (Tile.mk bug c none).height := by
          rw [boardHashSum_setTile _ hid0, hx0, hsum0]
          simp only [stackHash, Nat.zero_xor, Nat.xor_zero]
        by_cases hq : bug = Bug.queen
        · rw [if_pos hq] at h
          subst h
          exact ⟨congrArg (fun x => x ^^^ _) hz, hsum1⟩
        · rw [if_neg hq] at h
          subst h
          exact ⟨congrArg (fun x => x ^^^ _) hz, hsum1⟩
    · rw [hx] at h
      simp only [Option.some.injEq] at h
      have hsum1 : boardHashSum (b.setTile id (some (Tile.mk bug c (some prev))))
          = boardHashSum b ^^^ zobrist id bug c (Tile.mk bug c (some prev)).height := by
        rw [boardHashSum_setTile _ hlen, hx]
        have hstack : stackHash id (some (Tile.mk bug c (some prev)))
            = zobrist id bug c (Tile.mk bug c (some prev)).height ^^^ stackHash id (some prev) := by
          simp only [stackHash]
        rw [hstack, xor_xor_self_left]
      by_cases hq : bug = Bug.queen
      · rw [if_pos hq] at h
        subst h
        exact ⟨rfl, hsum1⟩
      · rw [if_neg hq] at h
        subst h
        exact ⟨rfl, hsum1⟩

theorem remove_hash {b : Board} {id : Nat} {t : Tile} {b1 : Board}
    (h : b.remove id = some (t, b1)) :
    ∃ tt, (b.nodes.getD id emptyNode).tile = some tt ∧
      b1.zobrist_hash = b.zobrist_hash ^^^ zobrist id tt.bug tt.color tt.height ∧
      boardHashSum b1 = boardHashSum b ^^^ zobrist id tt.bug tt.color tt.height := by
  unfold Board.remove at h
  rcases hx : (b.nodes.getD id emptyNode).tile with _ | tt
  · rw [hx] at h
    exact absurd h (by simp)
  · rw [hx] at h
    have hid : id < b.nodes.length := by
      by_contra hle
      push_neg at hle
      rw [List.getD_eq_default _ _ (by omega)] at hx
      simp [emptyNode] at hx
    refine ⟨tt, rfl, ?_⟩
    obtain ⟨bg, cl, u⟩ := tt
    simp only [Tile.bug, Tile.color, Tile.underneath, Option.some.injEq,
      Prod.mk.injEq] at h
    obtain ⟨-, h2⟩ := h
    subst h2
    cases u with
    | none =>
      refine ⟨rfl, ?_⟩
      have hset : boardHashSum (Board.setTile
            { b with zobrist_hash := b.zobrist_hash ^^^
                zobrist id bg cl (Tile.mk bg cl none).height }
            id none)
          = boardHashSum b ^^^
            (stackHash id ((b.nodes.getD id emptyNode).tile) ^^^ stackHash id none) :=
        boardHashSum_setTile none hid
      rw [hset, hx]
      simp only [stackHash, Nat.xor_zero, Tile.bug, Tile.color]
    | some stack =>
      refine ⟨rfl, ?_⟩
      have hset : boardHashSum (Board.setTile
            { b with zobrist_hash := b.zobrist_hash ^^^
                zobrist id bg cl (Tile.mk bg cl (some stack)).height }
            id (some stack))
          = boardHashSum b ^^^
            (stackHash id ((b.nodes.getD id emptyNode).tile) ^^^ stackHash id (some stack)) :=
        boardHashSum_setTile (some stack) hid
      rw [hset, hx]
      have hstack : stackHash id (some (Tile.mk bg cl (some stack)))
          = zobrist id bg cl (Tile.mk bg cl (some stack)).height ^^^ stackHash id (some stack) := by
        simp only [stackHash]
      rw [hstack, xor_xor_self_right]
      simp only [Tile.bug, Tile.color]

theorem rewindUndo_hash (b : Board) : (rewindUndo b).zobrist_hash = b.zobrist_hash := rfl

theorem rewindUndo_sum (b : Board) : boardHashSum (rewindUndo b) = boardHashSum b := rfl

theorem undo_pass_decomp {b b' : Board} (h : Move.pass.undo b = some b') :
    b.move_num ≠ 0 ∧ b' = rewindUndo b := by
  simp only [Move.undo] at h
  by_cases hmn : b.move_num = 0
  · rw [if_pos hmn] at h
    exact absurd h (by simp)
  · rw [if_neg hmn] at h
    simp only [Option.some.injEq] at h
    exact ⟨hmn, h.symm⟩

theorem undo_place_decomp {b b' : Board} {id : Nat} {bug : Bug}
    (h : (Move.place id bug).undo b = some b') :
    b.move_num ≠ 0 ∧ ∃ p : Tile × Board, (rewindUndo b).remove id = some p ∧
      p.2.get_remaining.getD bug.toNat 0 < 255 ∧
      b' = { p.2 with remaining := (p.2.remaining.set (p.2.move_num % 2)
        (p.2.get_remaining.set bug.toNat (p.2.get_remaining.getD bug.toNat 0 + 1))) } := by
  simp only [Move.undo] at h
  by_cases hmn : b.move_num = 0
  · rw [if_pos hmn] at h
    exact absurd h (by simp)
  · rw [if_neg hmn] at h
    rcases hrem : (rewindUndo b).remove id with _ | p
    · rw [hrem] at h
      exact absurd h (by simp)
    · rw [hrem] at h
      simp only [Option.some_bind] at h
      by_cases hr : 255 ≤ p.2.get_remaining.getD bug.toNat 0
      · rw [if_pos hr] at h
        exact absurd h (by simp)
      · rw [if_neg hr] at h
        simp only [Option.some.injEq] at h
        exact ⟨hmn, p, rfl, by omega, h.symm⟩

theorem undo_movement_decomp {b b' : Board} {s e : Nat}
    (h : (Move.movement s e).undo b = some b') :
    b.move_num ≠ 0 ∧ ∃ p : Tile × Board, (rewindUndo b).remove e = some p ∧
      p.2.insert s p.1.bug p.1.color = some b' := by
  simp only [Move.undo] at h
  by_cases hmn : b.move_num = 0
  · rw [if_pos hmn] at h
    exact absurd h (by simp)
  · rw [if_neg hmn] at h
    rcases hrem : (rewindUndo b).remove e with _ | p
    · rw [hrem] at h
      exact absurd h (by simp)
    · rw [hrem] at h
      simp only [Option.some_bind] at h
      exact ⟨hmn, p, rfl, h⟩

theorem apply_hashInv {m : Move} {b b' : Board} (h : m.apply b = some b')
    (hinv : b.zobrist_hash = boardHashSum b) :
    b'.zobrist_hash = boardHashSum b' := by
  cases m with
  | place id bug =>
    obtain ⟨b1, hins, -, hb'⟩ := apply_place_decomp h
    obtain ⟨hh, hs⟩ := insert_hash hins
    subst hb'
    show b1.zobrist_hash = boardHashSum b1
    rw [hh, hs, hinv]
  | movement s e =>
    obtain ⟨p, hrem, b2, hins, hb'⟩ := apply_movement_decomp h
    obtain ⟨tt, -, hh1, hs1⟩ := remove_hash hrem
    obtain ⟨hh2, hs2⟩ := insert_hash hins
    subst hb'
    show b2.zobrist_hash = boardHashSum b2
    rw [hh2, hs2, hh1, hs1, hinv]
  | pass =>
    rw [apply_pass_decomp h]
    exact hinv

theorem undo_hashInv {m : Move} {b b' : Board} (h : m.undo b = some b')
    (hinv : b.zobrist_hash = boardHashSum b) :
    b'.zobrist_hash = boardHashSum b' := by
  cases m with
  | place id bug =>
    obtain ⟨-, p, hrem, -, hb'⟩ := undo_place_decomp h
    obtain ⟨tt, -, hh1, hs1⟩ := remove_hash hrem
    subst hb'
    show p.2.zobrist_hash = boardHashSum p.2
    rw [hh1, hs1, rewindUndo_hash, rewindUndo_sum, hinv]
  | movement s e =>
    obtain ⟨-, p, hrem, hins⟩ := undo_movement_decomp h
    obtain ⟨tt, -, hh1, hs1⟩ := remove_hash hrem
    obtain ⟨hh2, hs2⟩ := insert_hash hins
    rw [hh2, hs2, hh1, hs1, rewindUndo_hash, rewindUndo_sum, hinv]
  | pass =>
    obtain ⟨-, hb'⟩ := undo_pass_decomp h
    subst hb'
    exact hinv

theorem default_hashInv : defaultBoard.zobrist_hash = boardHashSum defaultBoard := by
  have h2 : defaultBoard.nodes.map (fun nd => nd.tile) = [none, none, none] := rfl
  show defaultBoard.zobrist_hash = tilesHash 0 (defaultBoard.nodes.map (fun nd => nd.tile))
  rw [h2]
  simp only [tilesHash, stackHash, Nat.xor_zero]
  decide

theorem sreach_hashInv {b : Board} {l : List Move} (h : SReach b l) :
    b.zobrist_hash = boardHashSum b := by
  induction h with
  | base => exact default_hashInv
  | app hb hg hm ha ih => exact apply_hashInv ha ih
  | und hb hu ih => exact undo_hashInv hu ih

theorem reachable_hashInv {b : Board} (h : Reachable b) :
    b.zobrist_hash = boardHashSum b := by
  induction h with
  | base => exact default_hashInv
  | step hb hg hm ha ih => exact apply_hashInv ha ih

/-- C8: In every position reachable from `Board::default()` — by applying
generated moves, and more generally by any well-nested apply/undo search
sequence — the stored `zobrist_hash` equals the XOR, over every tile
currently on the board at every stack height, of
`rotate_left(ZOBRIST_TABLE[(id << 4) | (bug << 1) | color], height)`
(`boardHashSum`); moreover each successful `insert` XORs exactly the new
tile's word into the hash (the new tile sitting on top of the old stack, so
its height is the old stack's size), and each successful `remove` XORs
exactly the removed top tile's word out.  The `ZOBRIST_TABLE` contents are
spec-modelled (src/zobrist.rs is absent); the statement holds for any table
since only XOR algebra is used. -/
theorem c8_hash_is_tile_xor :
    (∀ (b : Board), Reachable b → b.zobrist_hash = boardHashSum b) ∧
    (∀ (b : Board) (l : List Move), SReach b l → b.zobrist_hash = boardHashSum b) ∧
    (∀ (b : Board) (id : Nat) (bug : Bug) (c : Color) (b1 : Board),
      b.insert id bug c = some b1 →
        b1.zobrist_hash = b.zobrist_hash ^^^
          zobrist id bug c (Tile.mk bug c ((b.nodes.getD id emptyNode).tile)).height) ∧
    (∀ (b : Board) (id : Nat) (t : Tile) (b1 : Board),
      b.remove id = some (t, b1) →
        ∃ tt, (b.nodes.getD id emptyNode).tile = some tt ∧
          b1.zobrist_hash = b.zobrist_hash ^^^ zobrist id tt.bug tt.color tt.height) :=
  ⟨fun _ h => reachable_hashInv h,
   fun _ _ h => sreach_hashInv h,
   fun _ _ _ _ _ h => (insert_hash h).1,
   fun _ _ _ _ h =>
     match remove_hash h with
     | ⟨tt, hx, hh, _⟩ => ⟨tt, hx, hh⟩⟩

/-- Witness for C8: the invariant instantiated at the concrete reachable
position `Board::default()` itself. -/
theorem c8_hash_is_tile_xor_witness :
    defaultBoard.zobrist_hash = boardHashSum defaultBoard :=
  c8_hash_is_tile_xor.1 defaultBoard Reachable.base

end Nokamute
